import Mathlib

/-!
# Verification of the treasury-analysis bond valuation engine

Shallow embedding, over the real numbers, of the pure numeric functions of the
repository's valuation engine:

* `src/bondmath.py` : `b_price`, `b_ytm` (the Newton residual `ytm_func` and the
  solver), `mod_duration`, `b_convexity`;
* `src/optionstreasuryetf.py` : `price_bond`;
* `src/corpdebtmath.py` : `corp_price`, `default_probability`, `z_spread`
  (with `np.interp` embedded as `interp`);
* `src/ukandinflationbonds.py` : `breakeven_inflation` (with its inner
  `objective` and the `np.linspace` fallback grid), `linker_price`.

Python floats are modelled as real numbers.  `x ** e` is `Real.rpow` when the
exponent is a general real, and the natural-number power when the source
exponent `freq*t` for `t = (i+1)/freq` is the integer `i+1` (exact in real
arithmetic whenever `freq ≠ 0`).  `int(T*freq)` is `Nat.floor` (the arguments
are nonnegative in every use).  The external SciPy root finders are modelled by
their contracts: `optimize.newton` as the exact root of the residual in the
region where the per-period discount factor is positive, and `optimize.brentq`
as an exact root in the bracket, available precisely when the bracket endpoints
have opposite signs (a `ValueError` otherwise, which the source catches).
Solver tolerances are idealised to exact roots.
-/

open Finset Classical

noncomputable section

/-- Embedding of `b_price` from `src/bondmath.py` (lines 39-52): coupon bond
price given a yield.  `coupon = coup/100*fv/freq`, coupon dates
`dt = [(i+1)/freq for i in range(int(T*freq))]`, each coupon discounted by
`(1+ytm/freq)**(freq*t) = (1+ytm/freq)**(i+1)`, and the face value discounted
by `(1+ytm/freq)**(freq*T)` (a real exponent). -/
def b_price (fv T ytm coup freq : ℝ) : ℝ :=
  let coupon := coup / 100 * fv / freq
  let n := ⌊T * freq⌋₊
  (∑ i ∈ Finset.range n, coupon / (1 + ytm / freq) ^ (i + 1))
    + fv / (1 + ytm / freq) ^ (freq * T)

/-- Embedding of the residual `ytm_func` defined inside `b_ytm` in
`src/bondmath.py` (line 36): the present value of the coupon schedule at trial
yield `y` plus the face value discounted over `freq*max(dt) = int(T*freq)`
whole periods, minus the observed price. -/
def ytm_func (price fv T coup freq y : ℝ) : ℝ :=
  let coupon := coup / 100 * fv / freq
  let n := ⌊T * freq⌋₊
  (∑ i ∈ Finset.range n, coupon / (1 + y / freq) ^ (i + 1))
    + fv / (1 + y / freq) ^ n - price

/-- Embedding of `b_ytm` from `src/bondmath.py` (lines 23-37).
`optimize.newton(ytm_func, guess)` is modelled by its contract: the root of
`ytm_func` in the region where the per-period discount factor `1 + y/freq` is
positive (the region in which the residual is strictly monotone, so the root is
unique); `0` is junk outside the solvable case. -/
def b_ytm (price fv T coup freq : ℝ) : ℝ :=
  if h : ∃ y, 0 < 1 + y / freq ∧ ytm_func price fv T coup freq y = 0 then
    h.choose
  else 0

/-- Embedding of `mod_duration` from `src/bondmath.py` (lines 54-62): recover
the yield from the observed price with `b_ytm`, re-price at `ytm ± dy`, and
form the central difference `(price_minus - price_plus)/(2*price*dy)`. -/
def mod_duration (price par T coup freq dy : ℝ) : ℝ :=
  let ytm := b_ytm price par T coup freq
  let price_minus := b_price par T (ytm - dy) coup freq
  let price_plus := b_price par T (ytm + dy) coup freq
  (price_minus - price_plus) / (2 * price * dy)

/-- Embedding of `b_convexity` from `src/bondmath.py` (lines 64-72): central
second difference `(price_minus + price_plus - 2*price)/(price*dy**2)`. -/
def b_convexity (price par T coup freq dy : ℝ) : ℝ :=
  let ytm := b_ytm price par T coup freq
  let price_minus := b_price par T (ytm - dy) coup freq
  let price_plus := b_price par T (ytm + dy) coup freq
  (price_minus + price_plus - 2 * price) / (price * dy ^ 2)

/-- Embedding of `price_bond` from `src/optionstreasuryetf.py` (lines 32-41);
textually the same computation as `b_price`. -/
def price_bond (fv T ytm coup freq : ℝ) : ℝ :=
  let coupon := coup / 100 * fv / freq
  let n := ⌊T * freq⌋₊
  (∑ i ∈ Finset.range n, coupon / (1 + ytm / freq) ^ (i + 1))
    + fv / (1 + ytm / freq) ^ (freq * T)

/-- Embedding of `corp_price` from `src/corpdebtmath.py` (lines 30-48): the
credit spread in basis points is converted by `spread_decimal =
credit_spread/10000` and added to the risk-free rate before discounting. -/
def corp_price (fv T rf_rate credit_spread coup freq : ℝ) : ℝ :=
  let coupon := coup / 100 * fv / freq
  let spread_decimal := credit_spread / 10000
  let total_rate := rf_rate + spread_decimal
  let n := ⌊T * freq⌋₊
  (∑ i ∈ Finset.range n, coupon / (1 + total_rate / freq) ^ (i + 1))
    + fv / (1 + total_rate / freq) ^ (freq * T)

/-- Embedding of `default_probability` from `src/corpdebtmath.py`
(lines 63-71): `pd = (credit_spread/10000)/(1 - recovery_rate)`. -/
def default_probability (credit_spread recovery_rate : ℝ) : ℝ :=
  let spread_decimal := credit_spread / 10000
  spread_decimal / (1 - recovery_rate)

/-- Embedding of `numpy.interp(t, xs, ys)` as used by `z_spread` in
`src/corpdebtmath.py` (line 105), taking the curve as the list of
`(tenor, yield)` pairs: constant extrapolation `ys[0]` below the first knot and
`ys[-1]` above the last, linear interpolation
`y1 + (y2-y1)*(t-x1)/(x2-x1)` in between. -/
def interp (t : ℝ) : List (ℝ × ℝ) → ℝ
  | [] => 0
  | [p] => p.2
  | p :: q :: rest =>
    if t ≤ p.1 then p.2
    else if t ≤ q.1 then p.2 + (q.2 - p.2) * (t - p.1) / (q.1 - p.1)
    else interp t (q :: rest)

/-- The discounted cash-flow total computed by the inner `npv` of `z_spread` in
`src/corpdebtmath.py` (lines 102-108), before the observed price is
subtracted: for each `(cf, t)` in `zip(cash_flows, payment_times)`, the rate is
interpolated from the curve, floored via
`discount_rate = max(0.0001, r + spread/10000)`, and the cash flow discounted
with semi-annual compounding `(1 + discount_rate/2)**(2*t)`. -/
def pvTotal (treasury_curve : List (ℝ × ℝ)) (cash_flows payment_times : List ℝ)
    (spread : ℝ) : ℝ :=
  ((cash_flows.zip payment_times).map fun ct =>
    let r := interp ct.2 treasury_curve
    let discount_rate := max (1 / 10000) (r + spread / 10000)
    ct.1 / (1 + discount_rate / 2) ^ (2 * ct.2)).sum

/-- Embedding of the inner `npv` function of `z_spread` in
`src/corpdebtmath.py` (lines 102-109): discounted cash-flow total minus the
observed price. -/
def npv (price : ℝ) (treasury_curve : List (ℝ × ℝ))
    (cash_flows payment_times : List ℝ) (spread : ℝ) : ℝ :=
  pvTotal treasury_curve cash_flows payment_times spread - price

/-- Embedding of `z_spread` from `src/corpdebtmath.py` (lines 100-115).
`optimize.brentq(npv, 0, 500)` is modelled by its contract: it requires a sign
change of `npv` over the bracket `[0, 500]` (otherwise it raises `ValueError`,
which the source catches and converts to `None`) and then returns a root of
`npv` in the bracket.  The root's existence is recorded in the branch
condition; it in fact follows from the sign change since `npv` is continuous
in the spread (`npv_continuous` below). -/
def z_spread (price : ℝ) (treasury_curve : List (ℝ × ℝ))
    (cash_flows payment_times : List ℝ) : Option ℝ :=
  if h : npv price treasury_curve cash_flows payment_times 0 *
           npv price treasury_curve cash_flows payment_times 500 ≤ 0 ∧
         ∃ s ∈ Set.Icc (0 : ℝ) 500,
           npv price treasury_curve cash_flows payment_times s = 0 then
    some h.2.choose
  else none

/-- Embedding of the inner `objective` function of `breakeven_inflation` in
`src/ukandinflationbonds.py` (lines 17-20), including its two dead local
bindings (`nominal_cf`, `real_cf`): the returned value is
`nominal_price - real_price*(1+inflation)**T`, which never reads the coupon
arguments. -/
def objective (nominal_price real_price T nominal_coupon real_coupon
    inflation : ℝ) : ℝ :=
  let nominal_cf := nominal_coupon / 2
  let real_cf := real_coupon / 2 * (1 + inflation) ^ T
  nominal_price - real_price * (1 + inflation) ^ T

/-- Embedding of `np.linspace(-0.10, 0.25, 1000)` from
`src/ukandinflationbonds.py` (line 27): the fallback search grid, with step
`0.35/999 = 7/19980`. -/
def gridPoints : List ℝ :=
  (List.range 1000).map fun k : ℕ => -(1 / 10) + (k : ℝ) * (7 / 19980)

/-- Embedding of `breakeven_inflation` from `src/ukandinflationbonds.py`
(lines 15-29).  `optimize.brentq(objective, -0.10, 0.25)` is modelled by its
contract exactly as in `z_spread`; when it fails (no sign change over the
bracket, hence `ValueError`), the source falls back to the grid search
`test_rates[np.argmin([abs(objective(r)) for r in test_rates])]`, embedded with
`List.argmin` (which, like `np.argmin`, takes the first minimiser). -/
def breakeven_inflation (nominal_price real_price T nominal_coupon
    real_coupon : ℝ) : ℝ :=
  if h : objective nominal_price real_price T nominal_coupon real_coupon
           (-(1 / 10)) *
         objective nominal_price real_price T nominal_coupon real_coupon
           (1 / 4) ≤ 0 ∧
         ∃ r ∈ Set.Icc (-(1 / 10) : ℝ) (1 / 4),
           objective nominal_price real_price T nominal_coupon real_coupon
             r = 0 then
    h.2.choose
  else
    (gridPoints.argmin fun r =>
      |objective nominal_price real_price T nominal_coupon real_coupon r|).getD 0

/-- Embedding of `linker_price` from `src/ukandinflationbonds.py`
(lines 31-43): real coupons are scaled by `(1+inflation_rate)**t` at each date
`t = (i+1)/freq` and the face value by `(1+inflation_rate)**T`, everything then
discounted at the real yield. -/
def linker_price (fv T real_yield inflation_rate real_coup freq : ℝ) : ℝ :=
  let real_coupon := real_coup / 100 * fv / freq
  let inflated_fv := fv * (1 + inflation_rate) ^ T
  let n := ⌊T * freq⌋₊
  (∑ i ∈ Finset.range n,
      real_coupon * (1 + inflation_rate) ^ (((i : ℝ) + 1) / freq)
        / (1 + real_yield / freq) ^ (i + 1))
    + inflated_fv / (1 + real_yield / freq) ^ (freq * T)

/-! ## Helper lemmas -/

/-- With a whole number of coupon periods (`T*freq = n`), the real exponent
`freq*T` on the face-value term of `b_price` is the natural number `n`, so
`b_price` is the purely natural-power discounted sum. -/
lemma b_price_npow_form (fv T y coup freq : ℝ) (n : ℕ) (hn : T * freq = n) :
    b_price fv T y coup freq =
      (∑ i ∈ Finset.range n, (coup / 100 * fv / freq) / (1 + y / freq) ^ (i + 1))
        + fv / (1 + y / freq) ^ n := by
  have hfloor : ⌊T * freq⌋₊ = n := by rw [hn]; exact Nat.floor_natCast n
  have hexp : freq * T = (n : ℝ) := by rw [mul_comm]; exact hn
  simp only [b_price, hfloor, hexp, Real.rpow_natCast]

/-- The `b_ytm` residual written with an explicit period count. -/
lemma ytm_func_form (p fv T coup freq y : ℝ) (n : ℕ) (hn : ⌊T * freq⌋₊ = n) :
    ytm_func p fv T coup freq y =
      (∑ i ∈ Finset.range n, (coup / 100 * fv / freq) / (1 + y / freq) ^ (i + 1))
        + fv / (1 + y / freq) ^ n - p := by
  simp only [ytm_func, hn]

/-- On the region where the per-period discount factor is positive, the
`b_ytm` residual is strictly decreasing in the trial yield, provided the face
value is positive, the coupon rate nonnegative, the frequency at least one,
and there is at least one coupon period. -/
lemma ytm_func_strictAnti (p fv T coup freq y₁ y₂ : ℝ)
    (hfv : 0 < fv) (hcoup : 0 ≤ coup) (hfreq : 1 ≤ freq)
    (hn : 1 ≤ ⌊T * freq⌋₊) (hD1 : 0 < 1 + y₁ / freq) (h12 : y₁ < y₂) :
    ytm_func p fv T coup freq y₂ < ytm_func p fv T coup freq y₁ := by
  have hf : 0 < freq := lt_of_lt_of_le one_pos hfreq
  have hDlt : 1 + y₁ / freq < 1 + y₂ / freq := by
    have : y₁ / freq < y₂ / freq := div_lt_div_of_pos_right h12 hf
    linarith
  have hD2 : 0 < 1 + y₂ / freq := lt_trans hD1 hDlt
  have hcoupon : 0 ≤ coup / 100 * fv / freq := by positivity
  have hsum : ∑ i ∈ Finset.range ⌊T * freq⌋₊,
        (coup / 100 * fv / freq) / (1 + y₂ / freq) ^ (i + 1)
      ≤ ∑ i ∈ Finset.range ⌊T * freq⌋₊,
        (coup / 100 * fv / freq) / (1 + y₁ / freq) ^ (i + 1) := by
    refine Finset.sum_le_sum fun i _ => ?_
    exact div_le_div_of_nonneg_left hcoupon (pow_pos hD1 _)
      (pow_le_pow_left₀ hD1.le hDlt.le _)
  have hfvterm : fv / (1 + y₂ / freq) ^ ⌊T * freq⌋₊
      < fv / (1 + y₁ / freq) ^ ⌊T * freq⌋₊ := by
    refine div_lt_div_of_pos_left hfv (pow_pos hD1 _) ?_
    exact pow_lt_pow_left₀ hDlt hD1.le (by omega)
  simp only [ytm_func]
  have h := add_lt_add_of_le_of_lt hsum hfvterm
  linarith

/-- Characterisation of the modelled `b_ytm`: if `y₀` is a root of the
residual inside the region where the per-period discount factor is positive,
and the residual is strictly monotone there (positive face value, nonnegative
coupon, frequency at least one, at least one period), then `b_ytm` returns
exactly `y₀`. -/
lemma b_ytm_eq_of_root (p fv T coup freq y₀ : ℝ)
    (hfv : 0 < fv) (hcoup : 0 ≤ coup) (hfreq : 1 ≤ freq)
    (hn : 1 ≤ ⌊T * freq⌋₊) (hy : 0 < 1 + y₀ / freq)
    (hroot : ytm_func p fv T coup freq y₀ = 0) :
    b_ytm p fv T coup freq = y₀ := by
  have hex : ∃ y, 0 < 1 + y / freq ∧ ytm_func p fv T coup freq y = 0 :=
    ⟨y₀, hy, hroot⟩
  have hch := hex.choose_spec
  rw [b_ytm, dif_pos hex]
  rcases lt_trichotomy hex.choose y₀ with hlt | heq | hgt
  · exfalso
    have := ytm_func_strictAnti p fv T coup freq hex.choose y₀
      hfv hcoup hfreq hn hch.1 hlt
    rw [hch.2, hroot] at this
    exact lt_irrefl 0 this
  · exact heq
  · exfalso
    have := ytm_func_strictAnti p fv T coup freq y₀ hex.choose
      hfv hcoup hfreq hn hy hgt
    rw [hch.2, hroot] at this
    exact lt_irrefl 0 this

/-- Strict monotonicity of `b_price` in the yield: on any interval where the
per-period discount factor stays positive, a larger yield gives a strictly
smaller price (positive face value, nonnegative coupon, frequency at least
one, positive maturity). -/
lemma b_price_lt_of_yield_lt (fv T coup freq y₁ y₂ : ℝ)
    (hfv : 0 < fv) (hT : 0 < T) (hcoup : 0 ≤ coup) (hfreq : 1 ≤ freq)
    (h12 : y₁ < y₂) (hD1 : 0 < 1 + y₁ / freq) :
    b_price fv T y₂ coup freq < b_price fv T y₁ coup freq := by
  have hf : 0 < freq := lt_of_lt_of_le one_pos hfreq
  have hDlt : 1 + y₁ / freq < 1 + y₂ / freq := by
    have : y₁ / freq < y₂ / freq := div_lt_div_of_pos_right h12 hf
    linarith
  have hD2 : 0 < 1 + y₂ / freq := lt_trans hD1 hDlt
  have hcoupon : 0 ≤ coup / 100 * fv / freq := by positivity
  have hsum : ∑ i ∈ Finset.range ⌊T * freq⌋₊,
        (coup / 100 * fv / freq) / (1 + y₂ / freq) ^ (i + 1)
      ≤ ∑ i ∈ Finset.range ⌊T * freq⌋₊,
        (coup / 100 * fv / freq) / (1 + y₁ / freq) ^ (i + 1) := by
    refine Finset.sum_le_sum fun i _ => ?_
    exact div_le_div_of_nonneg_left hcoupon (pow_pos hD1 _)
      (pow_le_pow_left₀ hD1.le hDlt.le _)
  have hfvterm : fv / (1 + y₂ / freq) ^ (freq * T)
      < fv / (1 + y₁ / freq) ^ (freq * T) := by
    refine div_lt_div_of_pos_left hfv (Real.rpow_pos_of_pos hD1 _) ?_
    exact Real.rpow_lt_rpow hD1.le hDlt (by positivity)
  simp only [b_price]
  exact add_lt_add_of_le_of_lt hsum hfvterm

/-- Midpoint convexity of `c / x ^ k` on the positive reals, for a nonnegative
numerator `c`: each discount term of `b_price` is midpoint convex in the
discount factor. -/
lemma div_pow_midpoint (c a b : ℝ) (k : ℕ) (hc : 0 ≤ c) (ha : 0 < a)
    (hb : 0 < b) :
    2 * (c / ((a + b) / 2) ^ k) ≤ c / a ^ k + c / b ^ k := by
  have h := (convexOn_zpow (𝕜 := ℝ) (-(k : ℤ))).2 (Set.mem_Ioi.mpr ha)
    (Set.mem_Ioi.mpr hb) (by norm_num : (0:ℝ) ≤ 1/2)
    (by norm_num : (0:ℝ) ≤ 1/2) (by norm_num)
  have hm : (1/2 : ℝ) * a + (1/2 : ℝ) * b = (a + b) / 2 := by ring
  simp only [smul_eq_mul] at h
  rw [hm] at h
  simp only [zpow_neg, zpow_natCast] at h
  have h2 := mul_le_mul_of_nonneg_left h hc
  have e1 : c / ((a + b) / 2) ^ k = c * (((a + b) / 2) ^ k)⁻¹ :=
    div_eq_mul_inv _ _
  have e2 : c / a ^ k = c * (a ^ k)⁻¹ := div_eq_mul_inv _ _
  have e3 : c / b ^ k = c * (b ^ k)⁻¹ := div_eq_mul_inv _ _
  rw [e1, e2, e3]
  nlinarith [h2]

/-- The discounted value appearing in the `b_ytm` residual is positive when
the face value is positive, the coupon nonnegative and the discount factor
positive. -/
lemma ytm_implied_price_pos (fv T coup freq y : ℝ) (hfv : 0 < fv)
    (hcoup : 0 ≤ coup) (hfreq : 1 ≤ freq) (hD : 0 < 1 + y / freq) :
    0 < (∑ i ∈ Finset.range ⌊T * freq⌋₊,
          (coup / 100 * fv / freq) / (1 + y / freq) ^ (i + 1))
        + fv / (1 + y / freq) ^ ⌊T * freq⌋₊ := by
  have hf : 0 < freq := lt_of_lt_of_le one_pos hfreq
  have hsum : 0 ≤ ∑ i ∈ Finset.range ⌊T * freq⌋₊,
      (coup / 100 * fv / freq) / (1 + y / freq) ^ (i + 1) :=
    Finset.sum_nonneg fun i _ => by positivity
  have hfvterm : 0 < fv / (1 + y / freq) ^ ⌊T * freq⌋₊ := by positivity
  linarith

/-- Midpoint convexity of `b_price` in the yield, over a whole number of
coupon periods, on the region where the discount factors stay positive. -/
lemma b_price_midpoint (fv T coup freq u v : ℝ) (n : ℕ) (hn : T * freq = n)
    (hfv : 0 ≤ fv) (hcoup : 0 ≤ coup) (hfreq : 1 ≤ freq)
    (hu : 0 < 1 + u / freq) (hv : 0 < 1 + v / freq) :
    2 * b_price fv T ((u + v) / 2) coup freq
      ≤ b_price fv T u coup freq + b_price fv T v coup freq := by
  have hf : 0 < freq := lt_of_lt_of_le one_pos hfreq
  have hmid : 1 + (u + v) / 2 / freq = ((1 + u / freq) + (1 + v / freq)) / 2 := by
    field_simp
    ring
  rw [b_price_npow_form fv T u coup freq n hn,
    b_price_npow_form fv T v coup freq n hn,
    b_price_npow_form fv T ((u + v) / 2) coup freq n hn, hmid]
  have hcoupon : 0 ≤ coup / 100 * fv / freq := by positivity
  have hfvterm := div_pow_midpoint fv (1 + u / freq) (1 + v / freq) n hfv hu hv
  have hsum : 2 * ∑ i ∈ Finset.range n,
        (coup / 100 * fv / freq) / (((1 + u / freq) + (1 + v / freq)) / 2) ^ (i + 1)
      ≤ (∑ i ∈ Finset.range n, (coup / 100 * fv / freq) / (1 + u / freq) ^ (i + 1))
        + ∑ i ∈ Finset.range n, (coup / 100 * fv / freq) / (1 + v / freq) ^ (i + 1) := by
    rw [Finset.mul_sum, ← Finset.sum_add_distrib]
    exact Finset.sum_le_sum fun i _ =>
      div_pow_midpoint _ _ _ (i + 1) hcoupon hu hv
  linarith

/-- The inner `npv` of `z_spread` is a continuous function of the spread: the
rate floor keeps every per-cash-flow discount factor at least `1 + 0.00005`,
so each term is a continuous real power composed with continuous maps. -/
lemma npv_continuous (price : ℝ) (curve : List (ℝ × ℝ)) (cfs times : List ℝ) :
    Continuous fun s => npv price curve cfs times s := by
  have hterm : ∀ l : List (ℝ × ℝ), Continuous fun s : ℝ =>
      (l.map fun ct =>
        ct.1 / (1 + max (1 / 10000) (interp ct.2 curve + s / 10000) / 2)
          ^ (2 * ct.2)).sum := by
    intro l
    induction l with
    | nil => simpa using continuous_const
    | cons ct rest ih =>
      simp only [List.map_cons, List.sum_cons]
      refine Continuous.add ?_ ih
      have hbase : Continuous fun s : ℝ =>
          1 + max (1 / 10000) (interp ct.2 curve + s / 10000) / 2 :=
        continuous_const.add ((continuous_const.max
          (continuous_const.add (continuous_id.div_const _))).div_const 2)
      have hbasepos : ∀ s : ℝ,
          0 < 1 + max (1 / 10000) (interp ct.2 curve + s / 10000) / 2 := by
        intro s
        have h1 : (1 / 10000 : ℝ) ≤ max (1 / 10000) (interp ct.2 curve + s / 10000) :=
          le_max_left _ _
        linarith
      have hpow : Continuous fun s : ℝ =>
          (1 + max (1 / 10000) (interp ct.2 curve + s / 10000) / 2) ^ (2 * ct.2) :=
        hbase.rpow_const fun s => Or.inl (hbasepos s).ne'
      exact continuous_const.div hpow fun s =>
        (Real.rpow_pos_of_pos (hbasepos s) _).ne'
  exact (hterm (cfs.zip times)).sub continuous_const

/-- A sign change of `npv` over the bracket `[0, 500]` yields a root in the
bracket (intermediate value theorem). -/
lemma npv_signChange_root (price : ℝ) (curve : List (ℝ × ℝ)) (cfs times : List ℝ)
    (h : npv price curve cfs times 0 * npv price curve cfs times 500 ≤ 0) :
    ∃ s ∈ Set.Icc (0 : ℝ) 500, npv price curve cfs times s = 0 := by
  have hc : ContinuousOn (fun s => npv price curve cfs times s)
      (Set.uIcc (0 : ℝ) 500) :=
    (npv_continuous price curve cfs times).continuousOn
  have hsub := intermediate_value_uIcc hc
  have h0 : (0 : ℝ) ∈ Set.uIcc (npv price curve cfs times 0)
      (npv price curve cfs times 500) := by
    rcases mul_nonpos_iff.mp h with ⟨h1, h2⟩ | ⟨h1, h2⟩
    · exact Set.mem_uIcc.mpr (Or.inr ⟨h2, h1⟩)
    · exact Set.mem_uIcc.mpr (Or.inl ⟨h1, h2⟩)
  obtain ⟨s, hs, hfs⟩ := hsub h0
  refine ⟨s, ?_, hfs⟩
  rwa [Set.uIcc_of_le (by norm_num : (0 : ℝ) ≤ 500)] at hs

/-- The breakeven `objective` is continuous on the bracket `[-0.10, 0.25]`
(there `1 + inflation ≥ 0.9 > 0`, so the real power is continuous). -/
lemma objective_continuousOn (np rp T nc rc : ℝ) :
    ContinuousOn (fun r => objective np rp T nc rc r)
      (Set.uIcc (-(1 / 10) : ℝ) (1 / 4)) := by
  have huIcc : Set.uIcc (-(1 / 10) : ℝ) (1 / 4) =
      Set.Icc (-(1 / 10) : ℝ) (1 / 4) :=
    Set.uIcc_of_le (by norm_num)
  have hbase : ContinuousOn (fun r : ℝ => 1 + r)
      (Set.Icc (-(1 / 10) : ℝ) (1 / 4)) :=
    (continuous_const.add continuous_id).continuousOn
  have hpow : ContinuousOn (fun r : ℝ => (1 + r) ^ T)
      (Set.Icc (-(1 / 10) : ℝ) (1 / 4)) := by
    refine hbase.rpow_const fun x hx => Or.inl ?_
    have h1 := hx.1
    have : (0 : ℝ) < 1 + x := by linarith
    exact this.ne'
  rw [huIcc]
  exact continuousOn_const.sub (continuousOn_const.mul hpow)

/-- A sign change of the breakeven `objective` over `[-0.10, 0.25]` yields a
root in the bracket (intermediate value theorem). -/
lemma objective_signChange_root (np rp T nc rc : ℝ)
    (h : objective np rp T nc rc (-(1 / 10)) *
         objective np rp T nc rc (1 / 4) ≤ 0) :
    ∃ r ∈ Set.Icc (-(1 / 10) : ℝ) (1 / 4), objective np rp T nc rc r = 0 := by
  have hsub := intermediate_value_uIcc (objective_continuousOn np rp T nc rc)
  have h0 : (0 : ℝ) ∈ Set.uIcc (objective np rp T nc rc (-(1 / 10)))
      (objective np rp T nc rc (1 / 4)) := by
    rcases mul_nonpos_iff.mp h with ⟨h1, h2⟩ | ⟨h1, h2⟩
    · exact Set.mem_uIcc.mpr (Or.inr ⟨h2, h1⟩)
    · exact Set.mem_uIcc.mpr (Or.inl ⟨h1, h2⟩)
  obtain ⟨r, hr, hfr⟩ := hsub h0
  refine ⟨r, ?_, hfr⟩
  rwa [Set.uIcc_of_le (by norm_num : (-(1 / 10) : ℝ) ≤ 1 / 4)] at hr

/-- Every point of the fallback grid lies in the search interval. -/
lemma gridPoints_mem_Icc (r : ℝ) (hr : r ∈ gridPoints) :
    r ∈ Set.Icc (-(1 / 10) : ℝ) (1 / 4) := by
  rw [gridPoints, List.mem_map] at hr
  obtain ⟨k, hk, rfl⟩ := hr
  rw [List.mem_range] at hk
  have hk9 : (k : ℝ) ≤ 999 := by
    have h9 : k ≤ 999 := Nat.lt_succ_iff.mp hk
    exact_mod_cast h9
  have hk0 : (0 : ℝ) ≤ (k : ℝ) := Nat.cast_nonneg k
  constructor
  · nlinarith
  · nlinarith

/-- The fallback grid search always selects an element of the grid. -/
lemma gridPoints_argmin_mem (f : ℝ → ℝ) :
    (gridPoints.argmin f).getD 0 ∈ gridPoints := by
  cases h : gridPoints.argmin f with
  | none =>
    rw [List.argmin_eq_none] at h
    have hlen : gridPoints.length = 1000 := by simp [gridPoints]
    rw [h] at hlen
    simp at hlen
  | some m =>
    have hm : m ∈ gridPoints.argmin f := by simp [h, Option.mem_def]
    simpa using List.argmin_mem hm

/-- The fallback grid search minimises `f` over the grid. -/
lemma gridPoints_argmin_min (f : ℝ → ℝ) (r : ℝ) (hr : r ∈ gridPoints) :
    f ((gridPoints.argmin f).getD 0) ≤ f r := by
  cases h : gridPoints.argmin f with
  | none =>
    rw [List.argmin_eq_none] at h
    have hlen : gridPoints.length = 1000 := by simp [gridPoints]
    rw [h] at hlen
    simp at hlen
  | some m =>
    have hm : m ∈ gridPoints.argmin f := by simp [h, Option.mem_def]
    simpa using List.le_of_mem_argmin hr hm

/-! ## Claim theorems -/

/-- Claim C2: for every fixed face value > 0, maturity T > 0, coupon rate ≥ 0
and frequency ≥ 1, `b_price` is strictly decreasing in the yield, for yields
ranging over any interval on which the per-period discount factor
`1 + ytm/freq` stays positive. -/
theorem b_price_strictly_decreasing_in_yield (fv T coup freq y₁ y₂ : ℝ)
    (hfv : 0 < fv) (hT : 0 < T) (hcoup : 0 ≤ coup) (hfreq : 1 ≤ freq)
    (hD1 : 0 < 1 + y₁ / freq) (h12 : y₁ < y₂) :
    b_price fv T y₂ coup freq < b_price fv T y₁ coup freq :=
  b_price_lt_of_yield_lt fv T coup freq y₁ y₂ hfv hT hcoup hfreq h12 hD1

/-- Witness for claim C2, at a 1-year 5% semi-annual bond and the yields
1% < 5%. -/
theorem b_price_strictly_decreasing_in_yield_witness :
    b_price 100 1 (1/20) 5 2 < b_price 100 1 (1/100) 5 2 :=
  b_price_strictly_decreasing_in_yield 100 1 5 2 (1/100) (1/20)
    (by norm_num) (by norm_num) (by norm_num) (by norm_num) (by norm_num)
    (by norm_num)

/-- Claim C5 counterexample: at the domain-violating input
`recovery_rate = 1.5 ≥ 1`, `default_probability` does not reject the input:
it silently returns the ordinary (negative) value `-0.017`. -/
theorem engine_accepts_invalid_recovery :
    default_probability 85 (3/2) = -(17/1000) := by
  simp only [default_probability]
  norm_num

/-- Claim C5 (amended): the engine performs no domain validation — on
domain-violating inputs the functions evaluate their formulas and return
ordinary real values rather than rejecting with a descriptive error: any
recovery rate > 1 yields a non-positive "default probability", and a zero
face value yields the price 0. -/
theorem engine_no_domain_validation (s rr T y coup freq : ℝ)
    (hs : 0 ≤ s) (hrr : 1 < rr) :
    default_probability s rr ≤ 0 ∧ b_price 0 T y coup freq = 0 := by
  constructor
  · have h1 : (1 : ℝ) - rr ≤ 0 := by linarith
    have h2 : 0 ≤ s / 10000 := by positivity
    exact div_nonpos_of_nonneg_of_nonpos h2 h1
  · simp [b_price]

/-- Witness for claim C5 (amended) at `spread = 85` bps,
`recovery_rate = 1.5`. -/
theorem engine_no_domain_validation_witness :
    default_probability 85 (3/2) ≤ 0 ∧ b_price 0 1 (1/20) 5 2 = 0 :=
  engine_no_domain_validation 85 (3/2) 1 (1/20) 5 2 (by norm_num) (by norm_num)

/-- Claim C7: `default_probability` computes exactly
`(spread/10000)/(1 - recovery_rate)` for every recovery rate < 1; in
particular at `spread = 85` bps and `recovery = 0.4` it returns
`0.0085/0.6 = 17/1200 ≈ 1.4167%`. -/
theorem default_probability_formula :
    (∀ s rr : ℝ, rr < 1 →
      default_probability s rr = s / 10000 / (1 - rr)) ∧
    default_probability 85 (2/5) = 17 / 1200 := by
  constructor
  · intro s rr _
    rfl
  · simp only [default_probability]
    norm_num

/-- Witness for claim C7: the formula applied at `spread = 50` bps,
`recovery = 0.5 < 1`. -/
theorem default_probability_formula_witness :
    default_probability 50 (1/2) = 50 / 10000 / (1 - 1/2) :=
  default_probability_formula.1 50 (1/2) (by norm_num)

/-- Claim C8: the four pricing embeddings coincide: `price_bond` is the same
computation as `b_price`, `corp_price` with zero credit spread collapses to
`b_price`, and `linker_price` with zero inflation collapses to `b_price`. -/
theorem pricing_functions_agree (fv T y coup freq : ℝ) :
    b_price fv T y coup freq = price_bond fv T y coup freq ∧
    b_price fv T y coup freq = corp_price fv T y 0 coup freq ∧
    b_price fv T y coup freq = linker_price fv T y 0 coup freq := by
  refine ⟨rfl, ?_, ?_⟩
  · simp [corp_price, b_price]
  · simp [linker_price, b_price, Real.one_rpow]

/-- Claim C9: `breakeven_inflation` ignores its two coupon arguments — its
internal objective depends only on the two prices and the maturity, so any two
choices of the coupon arguments give the same result. -/
theorem breakeven_inflation_ignores_coupons
    (np rp T nc rc nc₂ rc₂ : ℝ) :
    breakeven_inflation np rp T nc rc = breakeven_inflation np rp T nc₂ rc₂ := rfl

/-- Claim C1 counterexample: with `T = 3/4` and `freq = 2` the period count
`T*freq = 1.5` is not an integer.  `b_price` then discounts the face value
over `1.5` periods while the `b_ytm` residual discounts it over
`int(1.5) = 1` period, so the round trip does not recover the original yield
`0.1`: the residual's unique admissible root is
`2*((21/20)^(3/2) - 1) ≈ 0.1519`. -/
theorem b_ytm_b_price_roundtrip_fails_noninteger_periods :
    b_ytm (b_price 100 (3/4) (1/10) 0 2) 100 (3/4) 0 2 ≠ 1/10 := by
  have hfloor : ⌊(3/4 : ℝ) * 2⌋₊ = 1 := by
    rw [Nat.floor_eq_iff (by norm_num : (0:ℝ) ≤ (3/4 : ℝ) * 2)]
    norm_num
  have hxpos : (0:ℝ) < ((21:ℝ)/20) ^ ((3:ℝ)/2) :=
    Real.rpow_pos_of_pos (by norm_num) _
  have hprice : b_price 100 (3/4) (1/10) 0 2 = 100 / ((21:ℝ)/20) ^ ((3:ℝ)/2) := by
    simp only [b_price, hfloor]
    norm_num [Finset.sum_range_one]
  have hD : 1 + (2 * (((21:ℝ)/20) ^ ((3:ℝ)/2) - 1)) / 2
      = ((21:ℝ)/20) ^ ((3:ℝ)/2) := by ring
  have hroot : ytm_func (100 / ((21:ℝ)/20) ^ ((3:ℝ)/2)) 100 (3/4) 0 2
      (2 * (((21:ℝ)/20) ^ ((3:ℝ)/2) - 1)) = 0 := by
    rw [ytm_func_form _ 100 (3/4) 0 2 _ 1 hfloor, hD]
    simp [Finset.sum_range_one]
  have hb : b_ytm (100 / ((21:ℝ)/20) ^ ((3:ℝ)/2)) 100 (3/4) 0 2
      = 2 * (((21:ℝ)/20) ^ ((3:ℝ)/2) - 1) := by
    refine b_ytm_eq_of_root _ 100 (3/4) 0 2 _ (by norm_num) (by norm_num)
      (by norm_num) (by rw [hfloor]) ?_ hroot
    rw [hD]
    exact hxpos
  rw [hprice, hb]
  have hgt : (21:ℝ)/20 < ((21:ℝ)/20) ^ ((3:ℝ)/2) := by
    have h1 : ((21:ℝ)/20) ^ (1:ℝ) < ((21:ℝ)/20) ^ ((3:ℝ)/2) :=
      (Real.rpow_lt_rpow_left_iff (by norm_num : (1:ℝ) < 21/20)).mpr (by norm_num)
    rwa [Real.rpow_one] at h1
  intro hcontra
  have hx : ((21:ℝ)/20) ^ ((3:ℝ)/2) = 21/20 := by linarith
  linarith

/-- Claim C1 (amended): the price→yield round trip is exact when the maturity
covers a whole number `n ≥ 1` of coupon periods (`T*freq = n`): for a positive
face value, nonnegative coupon, frequency ≥ 1, and any yield with positive
per-period discount factor (the region where the modelled solver operates),
`b_ytm` applied to `b_price` recovers the yield exactly. -/
theorem b_ytm_b_price_roundtrip (fv T coup freq y : ℝ) (n : ℕ)
    (hn1 : 1 ≤ n) (hn : T * freq = n) (hfv : 0 < fv) (hcoup : 0 ≤ coup)
    (hfreq : 1 ≤ freq) (hD : 0 < 1 + y / freq) :
    b_ytm (b_price fv T y coup freq) fv T coup freq = y := by
  have hfloor : ⌊T * freq⌋₊ = n := by rw [hn]; exact Nat.floor_natCast n
  have hroot : ytm_func (b_price fv T y coup freq) fv T coup freq y = 0 := by
    rw [ytm_func_form _ fv T coup freq y n hfloor,
      b_price_npow_form fv T y coup freq n hn]
    ring
  exact b_ytm_eq_of_root _ fv T coup freq y hfv hcoup hfreq
    (by rw [hfloor]; exact hn1) hD hroot

/-- Witness for claim C1 (amended): a 1-year 5% semi-annual bond priced at
yield 5% round-trips exactly. -/
theorem b_ytm_b_price_roundtrip_witness :
    b_ytm (b_price 100 1 (1/20) 5 2) 100 1 5 2 = 1/20 :=
  b_ytm_b_price_roundtrip 100 1 5 2 (1/20) 2 (by norm_num) (by norm_num)
    (by norm_num) (by norm_num) (by norm_num) (by norm_num)

/-- Claim C6 counterexample: for the zero-coupon instrument with `T = 3/4`,
`freq = 2` (non-integer period count `T*freq = 1.5`), face value 100 and
observed price `2000/21 ≈ 95.24` — which is consistent with the yield
`0.1 > 0`, since `b_ytm` recovers exactly `0.1` from it — `b_convexity` with
the default bump `dy = 0.01` is negative: the residual discounts the face
value over one period while `b_price` discounts it over 1.5 periods, which
shifts the central second difference below zero. -/
theorem b_convexity_negative_noninteger_periods :
    b_convexity (2000/21) 100 (3/4) 0 2 (1/100) < 0 := by
  have hfloor : ⌊(3/4 : ℝ) * 2⌋₊ = 1 := by
    rw [Nat.floor_eq_iff (by norm_num : (0:ℝ) ≤ (3/4 : ℝ) * 2)]
    norm_num
  have hytm : b_ytm (2000/21) 100 (3/4) 0 2 = 1/10 := by
    refine b_ytm_eq_of_root _ 100 (3/4) 0 2 (1/10) (by norm_num) (by norm_num)
      (by norm_num) (by rw [hfloor]) (by norm_num) ?_
    rw [ytm_func_form _ 100 (3/4) 0 2 (1/10) 1 hfloor]
    norm_num [Finset.sum_range_one]
  have hpm : b_price 100 (3/4) (1/10 - 1/100) 0 2
      = 100 / ((209:ℝ)/200) ^ ((3:ℝ)/2) := by
    simp only [b_price, hfloor]
    norm_num [Finset.sum_range_one]
  have hpp : b_price 100 (3/4) (1/10 + 1/100) 0 2
      = 100 / ((211:ℝ)/200) ^ ((3:ℝ)/2) := by
    simp only [b_price, hfloor]
    norm_num [Finset.sum_range_one]
  have hs209 : (511:ℝ)/500 < Real.sqrt (209/200) :=
    (Real.lt_sqrt (by norm_num)).mpr (by norm_num)
  have hs211 : (1027:ℝ)/1000 < Real.sqrt (211/200) :=
    (Real.lt_sqrt (by norm_num)).mpr (by norm_num)
  have hr209 : ((209:ℝ)/200) ^ ((3:ℝ)/2) = (209/200) * Real.sqrt (209/200) := by
    rw [show ((3:ℝ)/2) = 1 + 1/2 by norm_num,
      Real.rpow_add (by norm_num : (0:ℝ) < 209/200), Real.rpow_one,
      ← Real.sqrt_eq_rpow]
  have hr211 : ((211:ℝ)/200) ^ ((3:ℝ)/2) = (211/200) * Real.sqrt (211/200) := by
    rw [show ((3:ℝ)/2) = 1 + 1/2 by norm_num,
      Real.rpow_add (by norm_num : (0:ℝ) < 211/200), Real.rpow_one,
      ← Real.sqrt_eq_rpow]
  have h209 : (106799:ℝ)/100000 < ((209:ℝ)/200) ^ ((3:ℝ)/2) := by
    rw [hr209]
    nlinarith [hs209]
  have h211 : (216697:ℝ)/200000 < ((211:ℝ)/200) ^ ((3:ℝ)/2) := by
    rw [hr211]
    nlinarith [hs211]
  have hpm2 : (100:ℝ) / ((209:ℝ)/200) ^ ((3:ℝ)/2) < 100 / (106799/100000) :=
    div_lt_div_of_pos_left (by norm_num) (by norm_num) h209
  have hpp2 : (100:ℝ) / ((211:ℝ)/200) ^ ((3:ℝ)/2) < 100 / (216697/200000) :=
    div_lt_div_of_pos_left (by norm_num) (by norm_num) h211
  have hsum : (100:ℝ) / (106799/100000) + 100 / (216697/200000)
      < 2 * (2000/21) := by norm_num
  simp only [b_convexity, hytm]
  refine div_neg_of_neg_of_pos ?_ (by norm_num)
  rw [hpm, hpp]
  linarith

/-- Claim C6 (amended): over a whole number `n ≥ 1` of coupon periods
(`T*freq = n`), for a plain vanilla bond (face value > 0, coupon rate ≥ 0,
frequency ≥ 1) with positive yield and an observed price consistent with that
yield (the `b_ytm` residual vanishes there), `mod_duration` and `b_convexity`
with the default bump `dy = 0.01` are both non-negative. -/
theorem duration_convexity_nonneg (price fv T coup freq y : ℝ) (n : ℕ)
    (hn1 : 1 ≤ n) (hn : T * freq = n) (hfv : 0 < fv) (hcoup : 0 ≤ coup)
    (hfreq : 1 ≤ freq) (hy : 0 < y)
    (hprice : ytm_func price fv T coup freq y = 0) :
    0 ≤ mod_duration price fv T coup freq (1/100) ∧
    0 ≤ b_convexity price fv T coup freq (1/100) := by
  have hf : 0 < freq := lt_of_lt_of_le one_pos hfreq
  have hT : 0 < T := by
    have hn0 : (0:ℝ) < (n:ℝ) := by exact_mod_cast hn1
    by_contra hc
    push_neg at hc
    nlinarith
  have hfloor : ⌊T * freq⌋₊ = n := by rw [hn]; exact Nat.floor_natCast n
  have hD : 0 < 1 + y / freq := by positivity
  have hytm : b_ytm price fv T coup freq = y :=
    b_ytm_eq_of_root price fv T coup freq y hfv hcoup hfreq
      (by rw [hfloor]; exact hn1) hD hprice
  have hform := ytm_func_form price fv T coup freq y n hfloor
  have hpricev : price = b_price fv T y coup freq := by
    rw [b_price_npow_form fv T y coup freq n hn]
    have h0 : (∑ i ∈ Finset.range n,
          (coup/100*fv/freq)/(1+y/freq)^(i+1)) + fv/(1+y/freq)^n - price = 0 := by
      rw [← hform]; exact hprice
    linarith
  have hpricepos : 0 < price := by
    rw [hpricev, b_price_npow_form fv T y coup freq n hn]
    have hp := ytm_implied_price_pos fv T coup freq y hfv hcoup hfreq hD
    rwa [hfloor] at hp
  have hDm : 0 < 1 + (y - 1/100) / freq := by
    rcases le_or_lt 0 (y - 1/100) with hc | hc
    · have : 0 ≤ (y - 1/100)/freq := div_nonneg hc hf.le
      linarith
    · have h1 : y - 1/100 ≤ (y - 1/100)/freq := by
        rw [le_div_iff₀ hf]
        nlinarith
      have h2 : -(1:ℝ) < y - 1/100 := by linarith
      linarith
  have hDp : 0 < 1 + (y + 1/100) / freq := by positivity
  constructor
  · have hnum : b_price fv T (y + 1/100) coup freq
        < b_price fv T (y - 1/100) coup freq :=
      b_price_lt_of_yield_lt fv T coup freq (y - 1/100) (y + 1/100) hfv hT
        hcoup hfreq (by linarith) hDm
    have hden : 0 < 2 * price * (1/100) := by
      have := hpricepos
      nlinarith
    simp only [mod_duration, hytm]
    exact (div_pos (by linarith) hden).le
  · have hmid := b_price_midpoint fv T coup freq (y - 1/100) (y + 1/100) n hn
      hfv.le hcoup hfreq hDm hDp
    have hyy : ((y - 1/100) + (y + 1/100))/2 = y := by ring
    rw [hyy] at hmid
    have hnum : 0 ≤ b_price fv T (y - 1/100) coup freq
        + b_price fv T (y + 1/100) coup freq - 2 * price := by
      rw [hpricev]
      linarith
    have hden : 0 < price * (1/100)^2 := by
      have := hpricepos
      nlinarith
    simp only [b_convexity, hytm]
    exact div_nonneg hnum hden.le

/-- Witness for claim C6 (amended): a 1-year zero-coupon bond, face 100,
semi-annual compounding and price `40000/441`, consistent with yield 10%. -/
theorem duration_convexity_nonneg_witness :
    0 ≤ mod_duration (40000/441) 100 1 0 2 (1/100) ∧
    0 ≤ b_convexity (40000/441) 100 1 0 2 (1/100) := by
  refine duration_convexity_nonneg (40000/441) 100 1 0 2 (1/10) 2 (by norm_num)
    (by norm_num) (by norm_num) (by norm_num) (by norm_num) (by norm_num) ?_
  have hfloor : ⌊(1:ℝ) * 2⌋₊ = 2 := by
    rw [show (1:ℝ) * 2 = ((2:ℕ):ℝ) by norm_num]
    exact Nat.floor_natCast 2
  rw [ytm_func_form _ 100 1 0 2 (1/10) 2 hfloor]
  norm_num [Finset.sum_range_succ]

/-- Claim C3: the `z_spread` solver contract: when the npv-minus-price
function changes sign over the spread bracket `[0, 500]` bps, `z_spread`
returns a spread whose implied discounted price (with the rate floor and
semi-annual compounding) equals the observed price (exactly, in the
idealised-solver model); when no sign change exists over the bracket, it
returns the documented sentinel `none` instead of raising. -/
theorem z_spread_contract (price : ℝ) (curve : List (ℝ × ℝ))
    (cfs times : List ℝ) :
    (npv price curve cfs times 0 * npv price curve cfs times 500 ≤ 0 →
      ∃ s, z_spread price curve cfs times = some s ∧
        pvTotal curve cfs times s = price) ∧
    (¬ npv price curve cfs times 0 * npv price curve cfs times 500 ≤ 0 →
      z_spread price curve cfs times = none) := by
  constructor
  · intro hsc
    have hex := npv_signChange_root price curve cfs times hsc
    have hcond : npv price curve cfs times 0 * npv price curve cfs times 500 ≤ 0 ∧
        ∃ s ∈ Set.Icc (0:ℝ) 500, npv price curve cfs times s = 0 := ⟨hsc, hex⟩
    refine ⟨hcond.2.choose, ?_, ?_⟩
    · rw [z_spread, dif_pos hcond]
    · have hroot : npv price curve cfs times hcond.2.choose = 0 :=
        hcond.2.choose_spec.2
      have := sub_eq_zero.mp hroot
      simpa [npv, sub_eq_zero] using hroot
  · intro hsc
    rw [z_spread, dif_neg]
    intro hcond
    exact hsc hcond.1

/-- Witness for claim C3: a single cash flow of 100 at `t = 0.5` against the
flat one-point curve `[(1, 5%)]` and observed price 97; the npv changes sign
over the bracket, so a spread matching the price exactly is returned. -/
theorem z_spread_contract_witness :
    ∃ s, z_spread 97 [(1, 1/20)] [100] [1/2] = some s ∧
      pvTotal [(1, 1/20)] [100] [1/2] s = 97 := by
  refine (z_spread_contract 97 [(1, 1/20)] [100] [1/2]).1 ?_
  have h0 : npv 97 [(1, 1/20)] [100] [1/2] 0 = 4000/41 - 97 := by
    simp only [npv, pvTotal, interp, List.zip]
    rw [max_eq_right (by norm_num : (1/10000 : ℝ) ≤ 1/20 + 0/10000)]
    norm_num [Real.rpow_one]
  have h500 : npv 97 [(1, 1/20)] [100] [1/2] 500 = 2000/21 - 97 := by
    simp only [npv, pvTotal, interp, List.zip]
    rw [max_eq_right (by norm_num : (1/10000 : ℝ) ≤ 1/20 + 500/10000)]
    norm_num [Real.rpow_one]
  rw [h0, h500]
  norm_num

set_option maxRecDepth 4000 in
/-- Claim C4: breakeven fallback guarantee: `breakeven_inflation` always
returns a value in the search domain `[-0.10, 0.25]` (in particular it is a
total function of its real inputs — it never raises); and whenever the
bracketing root-finder cannot run (no sign change of the objective over the
bracket), the result is the fallback grid point minimising the absolute
pricing error over the grid. -/
theorem breakeven_inflation_range_and_fallback (np rp T nc rc : ℝ) :
    breakeven_inflation np rp T nc rc ∈ Set.Icc (-(1/10) : ℝ) (1/4) ∧
    (¬ objective np rp T nc rc (-(1/10)) * objective np rp T nc rc (1/4) ≤ 0 →
      breakeven_inflation np rp T nc rc ∈ gridPoints ∧
      ∀ r ∈ gridPoints,
        |objective np rp T nc rc (breakeven_inflation np rp T nc rc)| ≤
          |objective np rp T nc rc r|) := by
  by_cases hcond : objective np rp T nc rc (-(1/10)) *
      objective np rp T nc rc (1/4) ≤ 0 ∧
      ∃ r ∈ Set.Icc (-(1/10) : ℝ) (1/4), objective np rp T nc rc r = 0
  · have hb : breakeven_inflation np rp T nc rc = hcond.2.choose := by
      rw [breakeven_inflation, dif_pos hcond]
    constructor
    · rw [hb]
      exact hcond.2.choose_spec.1
    · intro hnsc
      exact absurd hcond.1 hnsc
  · have hb : breakeven_inflation np rp T nc rc =
        (gridPoints.argmin fun r => |objective np rp T nc rc r|).getD 0 := by
      rw [breakeven_inflation, dif_neg hcond]
    refine ⟨?_, fun _ => ?_⟩
    · rw [hb]
      exact gridPoints_mem_Icc _
        (gridPoints_argmin_mem fun x => |objective np rp T nc rc x|)
    · rw [hb]
      exact ⟨gridPoints_argmin_mem fun x => |objective np rp T nc rc x|,
        fun r hr =>
          gridPoints_argmin_min (fun x => |objective np rp T nc rc x|) r hr⟩

/-- Witness for claim C4: with nominal price 10, real price 1, `T = 1`, the
objective has no sign change over the bracket, so the fallback branch is
taken: the result is a grid point (hence inside `[-0.10, 0.25]`). -/
theorem breakeven_inflation_range_and_fallback_witness :
    breakeven_inflation 10 1 1 1 1 ∈ Set.Icc (-(1/10) : ℝ) (1/4) ∧
    breakeven_inflation 10 1 1 1 1 ∈ gridPoints := by
  have h := breakeven_inflation_range_and_fallback 10 1 1 1 1
  have hnsc : ¬ objective 10 1 1 1 1 (-(1/10)) *
      objective 10 1 1 1 1 (1/4) ≤ 0 := by
    simp only [objective]
    rw [Real.rpow_one, Real.rpow_one]
    norm_num
  exact ⟨h.1, (h.2 hnsc).1⟩

/-- Claim C10: whenever `z_spread` returns a numeric result rather than the
`none` sentinel, that result lies in the closed bracket `[0, 500]` basis
points. -/
theorem z_spread_result_in_bracket (price : ℝ) (curve : List (ℝ × ℝ))
    (cfs times : List ℝ) (s : ℝ)
    (h : z_spread price curve cfs times = some s) :
    0 ≤ s ∧ s ≤ 500 := by
  by_cases hcond : npv price curve cfs times 0 * npv price curve cfs times 500 ≤ 0 ∧
      ∃ u ∈ Set.Icc (0:ℝ) 500, npv price curve cfs times u = 0
  · rw [z_spread, dif_pos hcond] at h
    have hs : hcond.2.choose = s := by
      exact Option.some.inj h
    have hmem := hcond.2.choose_spec.1
    rw [hs] at hmem
    exact Set.mem_Icc.mp hmem
  · rw [z_spread, dif_neg hcond] at h
    exact absurd h (by simp)

/-- Witness for claim C10: a concrete call on which `z_spread` returns a
numeric result, which the claim theorem places in `[0, 500]`. -/
theorem z_spread_result_in_bracket_witness :
    ∃ s, z_spread 96 [(1, 1/20)] [100] [1/2] = some s ∧ 0 ≤ s ∧ s ≤ 500 := by
  have h0 : npv 96 [(1, 1/20)] [100] [1/2] 0 = 4000/41 - 96 := by
    simp only [npv, pvTotal, interp, List.zip]
    rw [max_eq_right (by norm_num : (1/10000 : ℝ) ≤ 1/20 + 0/10000)]
    norm_num [Real.rpow_one]
  have h500 : npv 96 [(1, 1/20)] [100] [1/2] 500 = 2000/21 - 96 := by
    simp only [npv, pvTotal, interp, List.zip]
    rw [max_eq_right (by norm_num : (1/10000 : ℝ) ≤ 1/20 + 500/10000)]
    norm_num [Real.rpow_one]
  have hsc : npv 96 [(1, 1/20)] [100] [1/2] 0 *
      npv 96 [(1, 1/20)] [100] [1/2] 500 ≤ 0 := by
    rw [h0, h500]
    norm_num
  have hex := npv_signChange_root 96 [(1, 1/20)] [100] [1/2] hsc
  have hcond : npv 96 [(1, 1/20)] [100] [1/2] 0 *
      npv 96 [(1, 1/20)] [100] [1/2] 500 ≤ 0 ∧
      ∃ s ∈ Set.Icc (0:ℝ) 500, npv 96 [(1, 1/20)] [100] [1/2] s = 0 :=
    ⟨hsc, hex⟩
  have hsome : z_spread 96 [(1, 1/20)] [100] [1/2] = some hcond.2.choose := by
    rw [z_spread, dif_pos hcond]
  exact ⟨hcond.2.choose, hsome,
    z_spread_result_in_bracket 96 [(1, 1/20)] [100] [1/2] hcond.2.choose hsome⟩

end
